import Mathlib

/-!
Verification of the data-cleaning and company-name matching pipeline of
the customer-manager-analyzer dashboard (src/app.py), as a shallow
embedding in Lean.

Modelling conventions:
* a pandas DataFrame is a `Table`: a list of column names together with a
  list of rows, where a cell is `Option String` (`none` models a missing
  value / NaN, `some s` a present string value);
* a Python string is modelled as `List Char` (`PyStr`) where we need to
  reason about its characters, and as `String` where it stays opaque;
* a fallible Python expression is modelled as an `Option`/`Except`
  returning function, and a `try/except` handler as the corresponding
  recovery on that value;
* the third-party similarity function `fuzz.ratio` is an external
  library, so `suggest_company_name` is parameterised by an arbitrary
  score function `ratio : String → String → Nat`.
-/

open scoped List

namespace CustomerApp

/-! ### Python strings, `str.split`, `str.lower` -/

/-- A Python string, as its list of characters. -/
abbrev PyStr := List Char

/-- `s.lower()` (character-wise lowering; the inputs relevant here are ASCII). -/
def pyLower (s : PyStr) : PyStr := s.map Char.toLower

/-- `s.split(sep)` for a single-character separator, exactly as Python
splits: `"".split(c) = [""]`, and adjacent separators produce empty fields. -/
def pySplit (sep : Char) : PyStr → List PyStr
  | [] => [[]]
  | c :: cs =>
    if c = sep then [] :: pySplit sep cs
    else
      match pySplit sep cs with
      | [] => [[c]]
      | s :: rest => (c :: s) :: rest

/-- A Python value handed to `get_email_domain`: a string, or a
non-string value (on which `.split` raises `AttributeError`). -/
inductive PyValue where
  | str (s : PyStr)
  | intVal (n : Int)
  | noneVal
deriving DecidableEq

/-- The body of the `try:` block of `get_email_domain`
(src/app.py line 36): `email.split('@')[1].lower()`.
Returns `none` where Python raises (`AttributeError` on a non-string,
`IndexError` when the split has no second element). -/
def tryDomain : PyValue → Option PyStr
  | .str s => ((pySplit '@' s)[1]?).map pyLower
  | .intVal _ => none
  | .noneVal => none

/-- `get_email_domain` (src/app.py lines 34-38): the `try/except` turns
every failure of `tryDomain` into the sentinel `"Unknown"`. -/
def get_email_domain (v : PyValue) : PyStr :=
  (tryDomain v).getD ("Unknown".data)

/-! ### The matcher: `suggest_company_name` -/

/-- One step of the loop body of `suggest_company_name`
(src/app.py line 46): every candidate paired with its score
`fuzz.ratio(input_name.lower(), company.lower())`. -/
def scoredCandidates (ratio : String → String → Nat)
    (input_name : String) (company_list : List String) : List (String × Nat) :=
  company_list.map (fun company => (company, ratio input_name.toLower company.toLower))

/-- Insert one element into a descending-by-score list, after every
element of strictly greater score and before the rest; this is where the
stability of Python `sorted` with `reverse=True` lives. -/
def insertDesc (x : String × Nat) : List (String × Nat) → List (String × Nat)
  | [] => [x]
  | y :: ys => if x.2 < y.2 then y :: insertDesc x ys else x :: y :: ys

/-- Python `sorted(l, key=lambda x: x[1], reverse=True)`: the stable
descending-by-score sort (stable sorts by a given key agree as functions,
so insertion sort is a faithful model of Timsort here). -/
def sortDesc : List (String × Nat) → List (String × Nat)
  | [] => []
  | x :: xs => insertDesc x (sortDesc xs)

/-- The loop, filter, sort and truncation of `suggest_company_name`
(src/app.py lines 44-49), without the availability guard: score each
candidate, keep scores `>= threshold`, sort descending (stable), keep
the first 3. -/
def suggestCore (ratio : String → String → Nat)
    (input_name : String) (company_list : List String) (threshold : Nat) :
    List (String × Nat) :=
  (sortDesc ((scoredCandidates ratio input_name company_list).filter
    (fun p => threshold ≤ p.2))).take 3

/-- `suggest_company_name` (src/app.py lines 41-49), including the
`if not FUZZY_AVAILABLE: return []` guard on its first line; the module
level flag `FUZZY_AVAILABLE` is passed explicitly. -/
def suggest_company_name (ratio : String → String → Nat) (fuzzyAvailable : Bool)
    (input_name : String) (company_list : List String) (threshold : Nat) :
    List (String × Nat) :=
  if fuzzyAvailable then suggestCore ratio input_name company_list threshold
  else []

/-! ### The cleaner: `clean_data` over a DataFrame model -/

/-- A pandas DataFrame: named columns, and rows of cells where `none`
models a missing value (NaN). -/
structure Table where
  cols : List String
  rows : List (List (Option String))
deriving DecidableEq

/-- A rectangular (well-formed) DataFrame: every row has one cell per column. -/
abbrev Table.WF (t : Table) : Prop := ∀ r ∈ t.rows, r.length = t.cols.length

/-- The value of row `r` at column label `target` (first matching label,
as pandas positional lookup); `none` when the label is absent. -/
def lookupVal : List String → List (Option String) → String → Option (Option String)
  | [], _, _ => none
  | _ :: _, [], _ => none
  | c :: cs, v :: vs, target => if c = target then some v else lookupVal cs vs target

/-- Whether a looked-up cell holds a present (non-NaN) value. -/
def isPresent : Option (Option String) → Bool
  | some (some _) => true
  | _ => false

/-- The subset handed to `dropna` (src/app.py line 28). -/
def requiredCols : List String := ["First Name", "Email"]

/-- The columns handed to `drop` (src/app.py line 30). -/
def droppedCols : List String := ["Index", "Subscription Date"]

/-- The row predicate of `df.dropna(subset=['First Name', 'Email'])`:
both cells are present (non-NaN). -/
def rowOk (cols : List String) (r : List (Option String)) : Bool :=
  isPresent (lookupVal cols r "First Name") && isPresent (lookupVal cols r "Email")

/-- The effect of `df.drop(columns=['Index', 'Subscription Date'])` on
one row: cells under a dropped label are removed, walking labels and
cells in lockstep. -/
def removeCols : List String → List (Option String) → List (Option String)
  | [], _ => []
  | _ :: _, [] => []
  | c :: cs, v :: vs =>
    if c ∈ droppedCols then removeCols cs vs else v :: removeCols cs vs

/-- `df.drop_duplicates()` keep-first semantics, with the already-seen
rows accumulated (pandas compares NaN equal to NaN here, as does
`Option` equality). -/
def dedupAux [DecidableEq α] (seen : List α) : List α → List α
  | [] => []
  | x :: xs => if x ∈ seen then dedupAux seen xs else x :: dedupAux (x :: seen) xs

/-- `df.drop_duplicates()` (src/app.py line 26): keep the first
occurrence of every row, preserving order. -/
def dedupFirst [DecidableEq α] (l : List α) : List α := dedupAux [] l

/-- `clean_data` (src/app.py lines 24-31): drop duplicate rows, then
`dropna(subset=['First Name', 'Email'])` — which raises a `KeyError`
naming the missing labels when a subset label is absent from the
columns — then drop the `Index` and `Subscription Date` columns,
ignoring the ones that are absent. -/
def clean_data (t : Table) : Except String Table :=
  let rows1 := dedupFirst t.rows
  let missing := requiredCols.filter (fun c => c ∉ t.cols)
  if missing = [] then
    Except.ok
      { cols := t.cols.filter (fun c => c ∉ droppedCols),
        rows := (rows1.filter (rowOk t.cols)).map (removeCols t.cols) }
  else
    Except.error ("KeyError: " ++ String.intercalate ", " missing)

/-! ### Helper lemmas: `pySplit` -/

theorem pySplit_head (sep : Char) (l : PyStr) :
    ∃ rest, pySplit sep l = (l.takeWhile (fun c => c ≠ sep)) :: rest := by
  induction l with
  | nil => exact ⟨[], rfl⟩
  | cons c cs ih =>
    by_cases h : c = sep
    · subst h
      exact ⟨pySplit c cs, by simp [pySplit, List.takeWhile_cons]⟩
    · obtain ⟨rest, hr⟩ := ih
      exact ⟨rest, by simp [pySplit, h, hr, List.takeWhile_cons]⟩

theorem pySplit_not_mem (sep : Char) (l : PyStr) (h : sep ∉ l) : pySplit sep l = [l] := by
  induction l with
  | nil => rfl
  | cons c cs ih =>
    have hc : ¬ c = sep := by
      rintro rfl
      exact h (List.mem_cons_self c cs)
    have hcs : sep ∉ cs := fun hm => h (List.mem_cons_of_mem _ hm)
    simp [pySplit, hc, ih hcs]

theorem pySplit_append (sep : Char) (a b : PyStr) (h : sep ∉ a) :
    pySplit sep (a ++ sep :: b) = a :: pySplit sep b := by
  induction a with
  | nil => simp [pySplit]
  | cons c cs ih =>
    have hc : ¬ c = sep := by
      rintro rfl
      exact h (List.mem_cons_self c cs)
    have hcs : sep ∉ cs := fun hm => h (List.mem_cons_of_mem _ hm)
    simp [pySplit, hc, ih hcs]

/-! ### Helper lemmas: deduplication -/

theorem dedupAux_sublist [DecidableEq α] (seen l : List α) : dedupAux seen l <+ l := by
  induction l generalizing seen with
  | nil => simp [dedupAux]
  | cons x xs ih =>
    by_cases h : x ∈ seen
    · simp only [dedupAux, if_pos h]
      exact (ih seen).cons x
    · simp only [dedupAux, if_neg h]
      exact (ih (x :: seen)).cons₂ x

theorem mem_dedupAux [DecidableEq α] (a : α) (seen l : List α) :
    a ∈ dedupAux seen l ↔ a ∈ l ∧ a ∉ seen := by
  induction l generalizing seen with
  | nil => simp [dedupAux]
  | cons x xs ih =>
    by_cases h : x ∈ seen
    · simp only [dedupAux, if_pos h, ih, List.mem_cons]
      constructor
      · rintro ⟨h1, h2⟩
        exact ⟨Or.inr h1, h2⟩
      · rintro ⟨h1 | h1, h2⟩
        · exact absurd (h1 ▸ h) h2
        · exact ⟨h1, h2⟩
    · simp only [dedupAux, if_neg h, List.mem_cons, ih]
      by_cases hax : a = x
      · subst hax
        simp [h]
      · simp [hax]

theorem nodup_dedupAux [DecidableEq α] (seen l : List α) : (dedupAux seen l).Nodup := by
  induction l generalizing seen with
  | nil => simp [dedupAux]
  | cons x xs ih =>
    by_cases h : x ∈ seen
    · simp only [dedupAux, if_pos h]
      exact ih seen
    · simp only [dedupAux, if_neg h]
      refine List.nodup_cons.2 ⟨?_, ih (x :: seen)⟩
      intro hx
      exact ((mem_dedupAux x (x :: seen) xs).1 hx).2 (List.mem_cons_self x seen)

theorem dedupAux_congr [DecidableEq α] (seen₁ seen₂ l : List α)
    (h : ∀ a, a ∈ seen₁ ↔ a ∈ seen₂) : dedupAux seen₁ l = dedupAux seen₂ l := by
  induction l generalizing seen₁ seen₂ with
  | nil => rfl
  | cons x xs ih =>
    by_cases hx : x ∈ seen₁
    · simp only [dedupAux, if_pos hx, if_pos ((h x).1 hx)]
      exact ih seen₁ seen₂ h
    · simp only [dedupAux, if_neg hx, if_neg (fun hh => hx ((h x).2 hh))]
      congr 1
      refine ih (x :: seen₁) (x :: seen₂) ?_
      intro a
      simp [List.mem_cons, h a]

theorem dedupAux_append [DecidableEq α] (seen s t : List α) :
    dedupAux seen (s ++ t) = dedupAux seen s ++ dedupAux (s ++ seen) t := by
  induction s generalizing seen with
  | nil => simp [dedupAux]
  | cons x s ih =>
    by_cases h : x ∈ seen
    · simp only [List.cons_append, dedupAux, if_pos h, List.append_eq]
      rw [ih seen]
      congr 1
      refine dedupAux_congr _ _ _ ?_
      intro a
      simp only [List.mem_append, List.mem_cons]
      constructor
      · intro h1
        exact Or.inr h1
      · rintro (rfl | h1)
        · exact Or.inr h
        · exact h1
    · simp only [List.cons_append, dedupAux, if_neg h, List.append_eq]
      rw [ih (x :: seen)]
      congr 2
      refine dedupAux_congr _ _ _ ?_
      intro a
      simp only [List.mem_append, List.mem_cons]
      tauto

theorem dedupAux_eq_self [DecidableEq α] (seen l : List α) (hn : l.Nodup)
    (hd : ∀ a ∈ l, a ∉ seen) : dedupAux seen l = l := by
  induction l generalizing seen with
  | nil => rfl
  | cons x xs ih =>
    have hx : x ∉ seen := hd x (List.mem_cons_self x xs)
    simp only [dedupAux, if_neg hx]
    congr 1
    refine ih (x :: seen) (List.nodup_cons.1 hn).2 ?_
    intro a ha
    intro hmem
    rcases List.mem_cons.1 hmem with rfl | hmem
    · exact (List.nodup_cons.1 hn).1 ha
    · exact hd a (List.mem_cons_of_mem _ ha) hmem

theorem dedupFirst_sublist [DecidableEq α] (l : List α) : dedupFirst l <+ l :=
  dedupAux_sublist [] l

theorem mem_dedupFirst [DecidableEq α] (a : α) (l : List α) :
    a ∈ dedupFirst l ↔ a ∈ l := by
  simp [dedupFirst, mem_dedupAux]

theorem nodup_dedupFirst [DecidableEq α] (l : List α) : (dedupFirst l).Nodup :=
  nodup_dedupAux [] l

theorem dedupFirst_eq_self [DecidableEq α] (l : List α) (hn : l.Nodup) :
    dedupFirst l = l :=
  dedupAux_eq_self [] l hn (by simp)

/-! ### Generic list helpers -/

theorem map_eq_self_of {α : Type} (f : α → α) (l : List α) (h : ∀ x ∈ l, f x = x) :
    l.map f = l := by
  induction l with
  | nil => rfl
  | cons x xs ih =>
    rw [List.map_cons, h x (List.mem_cons_self x xs),
      ih (fun y hy => h y (List.mem_cons_of_mem _ hy))]

theorem filter_sublist_filter {α : Type} (p q : α → Bool) (l : List α)
    (h : ∀ a, p a = true → q a = true) : l.filter p <+ l.filter q := by
  induction l with
  | nil => simp
  | cons x xs ih =>
    by_cases hx : p x = true
    · rw [List.filter_cons, List.filter_cons, if_pos hx, if_pos (h x hx)]
      exact ih.cons₂ x
    · rw [List.filter_cons, if_neg hx]
      by_cases hq : q x = true
      · rw [List.filter_cons, if_pos hq]
        exact ih.cons x
      · rw [List.filter_cons, if_neg hq]
        exact ih

theorem front_filter {α : Type} (p : α → Bool) {l₁ l₂ : List α} (h : l₁ <+: l₂) :
    l₁.filter p <+: l₂.filter p := by
  obtain ⟨t, rfl⟩ := h
  exact ⟨t.filter p, (List.filter_append _ _).symm⟩

/-! ### Helper lemmas: cell lookup and column removal -/

theorem lookupVal_nil_row (cols : List String) (target : String) :
    lookupVal cols [] target = none := by
  cases cols <;> rfl

theorem mem_of_lookupVal (cols : List String) (r : List (Option String))
    (target : String) (w : Option String) (h : lookupVal cols r target = some w) :
    target ∈ cols := by
  induction cols generalizing r with
  | nil => simp [lookupVal] at h
  | cons c cs ih =>
    cases r with
    | nil => rw [lookupVal_nil_row] at h; exact absurd h (by simp)
    | cons v vs =>
      by_cases hc : c = target
      · exact hc ▸ List.mem_cons_self c cs
      · simp only [lookupVal, if_neg hc] at h
        exact List.mem_cons_of_mem _ (ih vs h)

theorem lookupVal_removeCols (cols : List String) (r : List (Option String))
    (target : String) (ht : target ∉ droppedCols) :
    lookupVal (cols.filter (fun c => c ∉ droppedCols)) (removeCols cols r) target
      = lookupVal cols r target := by
  induction cols generalizing r with
  | nil => rfl
  | cons c cs ih =>
    cases r with
    | nil =>
      rw [lookupVal_nil_row, removeCols, lookupVal_nil_row]
    | cons v vs =>
      by_cases hc : c ∈ droppedCols
      · have hct : ¬ c = target := fun hh => ht (hh ▸ hc)
        have hfil : List.filter (fun x => decide (x ∉ droppedCols)) (c :: cs)
            = List.filter (fun x => decide (x ∉ droppedCols)) cs := by
          simp [List.filter_cons, hc]
        rw [removeCols, if_pos hc, hfil, ih vs]
        simp [lookupVal, hct]
      · have hfil : List.filter (fun x => decide (x ∉ droppedCols)) (c :: cs)
            = c :: List.filter (fun x => decide (x ∉ droppedCols)) cs := by
          simp [List.filter_cons, hc]
        rw [removeCols, if_neg hc, hfil]
        by_cases hct : c = target
        · simp [lookupVal, hct]
        · simp only [lookupVal, if_neg hct]
          exact ih vs

theorem removeCols_eq_self (cols : List String) (r : List (Option String))
    (h : ∀ c ∈ cols, c ∉ droppedCols) (hl : r.length = cols.length) :
    removeCols cols r = r := by
  induction cols generalizing r with
  | nil =>
    rw [List.length_nil, List.length_eq_zero] at hl
    rw [hl]
    rfl
  | cons c cs ih =>
    cases r with
    | nil => simp at hl
    | cons v vs =>
      have hc := h c (List.mem_cons_self c cs)
      rw [removeCols, if_neg hc]
      congr 1
      exact ih vs (fun d hd => h d (List.mem_cons_of_mem _ hd)) (by simpa using hl)

theorem isPresent_iff (o : Option (Option String)) :
    isPresent o = true ↔ ∃ s, o = some (some s) := by
  cases o with
  | none => simp [isPresent]
  | some v => cases v <;> simp [isPresent]

/-! ### Helper lemmas: the stable descending sort -/

theorem length_insertDesc (x : String × Nat) (l : List (String × Nat)) :
    (insertDesc x l).length = l.length + 1 := by
  induction l with
  | nil => rfl
  | cons y ys ih => by_cases h : x.2 < y.2 <;> simp [insertDesc, h, ih]

theorem length_sortDesc (l : List (String × Nat)) : (sortDesc l).length = l.length := by
  induction l with
  | nil => rfl
  | cons x xs ih => simp [sortDesc, length_insertDesc, ih]

theorem mem_insertDesc (a x : String × Nat) (l : List (String × Nat)) :
    a ∈ insertDesc x l ↔ a = x ∨ a ∈ l := by
  induction l with
  | nil => simp [insertDesc]
  | cons y ys ih =>
    by_cases h : x.2 < y.2
    · simp only [insertDesc, if_pos h, List.mem_cons, ih]
      tauto
    · simp only [insertDesc, if_neg h, List.mem_cons]

theorem mem_sortDesc (a : String × Nat) (l : List (String × Nat)) :
    a ∈ sortDesc l ↔ a ∈ l := by
  induction l with
  | nil => simp [sortDesc]
  | cons x xs ih => simp [sortDesc, mem_insertDesc, ih]

theorem pairwise_insertDesc (x : String × Nat) (l : List (String × Nat))
    (h : l.Pairwise (fun a b => b.2 ≤ a.2)) :
    (insertDesc x l).Pairwise (fun a b => b.2 ≤ a.2) := by
  induction l with
  | nil => simp [insertDesc]
  | cons y ys ih =>
    rcases List.pairwise_cons.1 h with ⟨hy, hys⟩
    by_cases hlt : x.2 < y.2
    · simp only [insertDesc, if_pos hlt]
      refine List.pairwise_cons.2 ⟨?_, ih hys⟩
      intro z hz
      rcases (mem_insertDesc z x ys).1 hz with rfl | hz
      · exact Nat.le_of_lt hlt
      · exact hy z hz
    · simp only [insertDesc, if_neg hlt]
      refine List.pairwise_cons.2 ⟨?_, h⟩
      intro z hz
      rcases List.mem_cons.1 hz with rfl | hz
      · exact Nat.le_of_not_lt hlt
      · exact Nat.le_trans (hy z hz) (Nat.le_of_not_lt hlt)

theorem pairwise_sortDesc (l : List (String × Nat)) :
    (sortDesc l).Pairwise (fun a b => b.2 ≤ a.2) := by
  induction l with
  | nil => simp [sortDesc]
  | cons x xs ih => exact pairwise_insertDesc x _ ih

theorem filter_insertDesc (x : String × Nat) (l : List (String × Nat)) (s : Nat) :
    (insertDesc x l).filter (fun p => p.2 = s)
      = if x.2 = s then x :: l.filter (fun p => p.2 = s)
        else l.filter (fun p => p.2 = s) := by
  induction l with
  | nil => by_cases h : x.2 = s <;> simp [insertDesc, h]
  | cons y ys ih =>
    by_cases hlt : x.2 < y.2
    · simp only [insertDesc, if_pos hlt, List.filter_cons]
      by_cases hx : x.2 = s
      · have hy : ¬ (y.2 = s) := by omega
        simp [hx, hy, ih]
      · by_cases hy : y.2 = s <;> simp [hx, hy, ih]
    · simp only [insertDesc, if_neg hlt, List.filter_cons]
      by_cases hx : x.2 = s <;> simp [hx]

theorem filter_sortDesc (l : List (String × Nat)) (s : Nat) :
    (sortDesc l).filter (fun p => p.2 = s) = l.filter (fun p => p.2 = s) := by
  induction l with
  | nil => rfl
  | cons x xs ih =>
    simp only [sortDesc]
    rw [filter_insertDesc]
    by_cases hx : x.2 = s <;> simp [hx, ih, List.filter_cons]

/-! ### Claims about `get_email_domain` (C2, C10) -/

/-- C2 counterexample: on the input `"x@y@z"` the code returns `"y"`, the
segment between the first and the second `'@'`, and not the lower-cased
substring after the first `'@'`, which would be `"y@z"`; so the claim as
stated fails at this input. -/
theorem get_email_domain_counterexample :
    get_email_domain (PyValue.str ("x@y@z".data)) = "y".data ∧
    get_email_domain (PyValue.str ("x@y@z".data)) ≠ pyLower ("y@z".data) := by
  decide

/-- C2 (amended): `get_email_domain` returns the lower-cased segment of the
email strictly between the first `'@'` and the next `'@'` (the second field
of splitting on `'@'`; for a string with a single `'@'` this is the whole
substring after it), and returns the sentinel `"Unknown"` when the string
contains no `'@'` at all — in particular on the empty string. -/
theorem get_email_domain_spec (a b s : PyStr) :
    (('@' ∉ a) → get_email_domain (PyValue.str (a ++ '@' :: b))
      = pyLower (b.takeWhile (fun c => c ≠ '@'))) ∧
    (('@' ∉ s) → get_email_domain (PyValue.str s) = "Unknown".data) := by
  constructor
  · intro ha
    obtain ⟨rest, hr⟩ := pySplit_head '@' b
    simp [get_email_domain, tryDomain, pySplit_append '@' a b ha, hr]
  · intro hs
    simp [get_email_domain, tryDomain, pySplit_not_mem '@' s hs]

/-- C2 witness: the spec's concrete examples, obtained from
`get_email_domain_spec`: `domain_of("a@B.COM") = "b.com"`,
`domain_of("not-an-email") = "Unknown"`, `domain_of("") = "Unknown"`. -/
theorem get_email_domain_spec_witness :
    get_email_domain (PyValue.str ("a@B.COM".data)) = "b.com".data ∧
    get_email_domain (PyValue.str ("not-an-email".data)) = "Unknown".data ∧
    get_email_domain (PyValue.str []) = "Unknown".data := by
  refine ⟨?_, ?_, ?_⟩
  · have h := (get_email_domain_spec ("a".data) ("B.COM".data) []).1 (by decide)
    have e1 : ("a@B.COM".data) = ("a".data ++ '@' :: "B.COM".data) := by decide
    have e2 : pyLower (("B.COM".data).takeWhile (fun c => c ≠ '@')) = "b.com".data := by
      decide
    rw [e1, ← e2]
    exact h
  · exact (get_email_domain_spec [] [] ("not-an-email".data)).2 (by decide)
  · exact (get_email_domain_spec [] [] []).2 (by decide)

/-- C10: `get_email_domain` is total: on every input value — any string,
the empty string, or even a non-string value — it returns a string and
never fails: the computed lower-cased domain when the try-block succeeds,
and the sentinel `"Unknown"` on every failure. -/
theorem get_email_domain_total (v : PyValue) :
    (∃ d, tryDomain v = some d ∧ get_email_domain v = d) ∨
    (tryDomain v = none ∧ get_email_domain v = "Unknown".data) := by
  cases h : tryDomain v with
  | none => exact Or.inr ⟨rfl, by simp [get_email_domain, h]⟩
  | some d => exact Or.inl ⟨d, rfl, by simp [get_email_domain, h]⟩

/-! ### Claims about `suggest_company_name` (C6, C7, C8, C9) -/

/-- C6: for every score function, query, candidate list and threshold, the
suggestions returned by `suggest_company_name` (similarity library
available) are sorted in descending score order, and ties between equal
scores keep the candidates' original iteration order: for each score `s`,
the returned entries of score `s` form a prefix of the matching entries of
score `s` taken in candidate order. -/
theorem suggest_sorted_stable (ratio : String → String → Nat) (q : String)
    (cs : List String) (th : Nat) :
    (suggest_company_name ratio true q cs th).Pairwise (fun a b => b.2 ≤ a.2) ∧
    ∀ s : Nat, (suggest_company_name ratio true q cs th).filter (fun p => p.2 = s)
      <+: ((scoredCandidates ratio q cs).filter (fun p => th ≤ p.2)).filter
        (fun p => p.2 = s) := by
  have hdef : suggest_company_name ratio true q cs th
      = (sortDesc ((scoredCandidates ratio q cs).filter (fun p => th ≤ p.2))).take 3 :=
    rfl
  constructor
  · rw [hdef]
    exact (pairwise_sortDesc _).sublist (List.take_sublist 3 _)
  · intro s
    have h3 := front_filter (fun p => decide (p.2 = s)) (List.take_prefix 3
      (sortDesc ((scoredCandidates ratio q cs).filter (fun p => th ≤ p.2))))
    rw [filter_sortDesc] at h3
    rw [hdef]
    exact h3

/-- C7: every suggestion returned by `suggest_company_name` has a score of
at least the threshold, and raising the threshold never increases the
number of suggestions returned. -/
theorem suggest_threshold_antitone (ratio : String → String → Nat) (avail : Bool)
    (q : String) (cs : List String) (th th₂ : Nat) (hth : th ≤ th₂) :
    (∀ p ∈ suggest_company_name ratio avail q cs th, th ≤ p.2) ∧
    (suggest_company_name ratio avail q cs th₂).length
      ≤ (suggest_company_name ratio avail q cs th).length := by
  cases avail with
  | false => simp [suggest_company_name]
  | true =>
    have hdef : ∀ t : Nat, suggest_company_name ratio true q cs t
        = (sortDesc ((scoredCandidates ratio q cs).filter (fun p => t ≤ p.2))).take 3 :=
      fun t => rfl
    constructor
    · intro p hp
      rw [hdef th] at hp
      have hp2 : p ∈ sortDesc ((scoredCandidates ratio q cs).filter (fun x => th ≤ x.2)) :=
        (List.take_sublist 3 _).subset hp
      have hp3 := (mem_sortDesc p _).1 hp2
      have hp4 := List.of_mem_filter hp3
      simpa using hp4
    · rw [hdef th, hdef th₂]
      have hsub : (scoredCandidates ratio q cs).filter (fun p => th₂ ≤ p.2)
          <+ (scoredCandidates ratio q cs).filter (fun p => th ≤ p.2) := by
        refine filter_sublist_filter _ _ _ ?_
        intro a ha
        simp only [decide_eq_true_eq] at ha ⊢
        omega
      have hlen := hsub.length_le
      rw [List.length_take, List.length_take, length_sortDesc, length_sortDesc]
      exact min_le_min (Nat.le_refl 3) hlen

/-- C7 witness: at the score function constantly 90, query `"a"`,
candidates `["b"]` and thresholds `80 ≤ 85`, every returned suggestion
scores at least 80 and the result count does not grow. -/
theorem suggest_threshold_antitone_witness :
    (∀ p ∈ suggest_company_name (fun _ _ => 90) true "a" ["b"] 80, 80 ≤ p.2) ∧
    (suggest_company_name (fun _ _ => 90) true "a" ["b"] 85).length
      ≤ (suggest_company_name (fun _ _ => 90) true "a" ["b"] 80).length :=
  suggest_threshold_antitone (fun _ _ => 90) true "a" ["b"] 80 85 (by decide)

/-- C8: `suggest_company_name` returns at most 3 suggestions (the
hard-coded `[:3]` truncation, the default limit of the spec), and on an
empty candidate list it returns the empty list rather than an error. -/
theorem suggest_limit_and_empty (ratio : String → String → Nat) (avail : Bool)
    (q : String) (cs : List String) (th : Nat) :
    (suggest_company_name ratio avail q cs th).length ≤ 3 ∧
    suggest_company_name ratio avail q [] th = [] := by
  constructor
  · cases avail with
    | false => simp [suggest_company_name]
    | true =>
      have hdef : suggest_company_name ratio true q cs th
          = (sortDesc ((scoredCandidates ratio q cs).filter (fun p => th ≤ p.2))).take 3 :=
        rfl
      rw [hdef]
      exact List.length_take_le 3 _
  · cases avail with
    | false => rfl
    | true => rfl

/-- C9 counterexample: with identical inputs (query, candidates,
threshold) the result of `suggest_company_name` differs between the
available and the unavailable library state, so the result is not
determined solely by those inputs. -/
theorem suggest_flag_counterexample :
    suggest_company_name (fun _ _ => 95) true "acme" ["Acme"] 80
      ≠ suggest_company_name (fun _ _ => 95) false "acme" ["Acme"] 80 := by
  decide

/-- C9 (amended): the availability check sits inside
`suggest_company_name` itself: when the similarity library is unavailable
it returns `[]` whatever its other inputs, and when it is available the
result is exactly the pure core algorithm applied to (query, candidates,
threshold). -/
theorem suggest_flag_behaviour (ratio : String → String → Nat) (q : String)
    (cs : List String) (th : Nat) :
    suggest_company_name ratio false q cs th = [] ∧
    suggest_company_name ratio true q cs th = suggestCore ratio q cs th :=
  ⟨rfl, rfl⟩

/-! ### Claims about `clean_data` (C1, C3, C4, C5) -/

/-- On a table whose schema has both required columns, none of which is a
pruned column, and whose rows are rectangular, `clean_data` succeeds and
returns exactly the deduplicated, required-field-filtered rows over the
unchanged schema. -/
theorem clean_data_eq (t : Table) (hwf : t.WF)
    (hdisj : ∀ c ∈ t.cols, c ∉ droppedCols)
    (hm : requiredCols.filter (fun c => c ∉ t.cols) = []) :
    clean_data t = Except.ok ⟨t.cols, (dedupFirst t.rows).filter (rowOk t.cols)⟩ := by
  have hcols : t.cols.filter (fun c => c ∉ droppedCols) = t.cols :=
    List.filter_eq_self.mpr (fun c hc => by simpa using hdisj c hc)
  have hrows : ((dedupFirst t.rows).filter (rowOk t.cols)).map (removeCols t.cols)
      = (dedupFirst t.rows).filter (rowOk t.cols) := by
    refine map_eq_self_of _ _ ?_
    intro r hr
    exact removeCols_eq_self t.cols r hdisj
      (hwf r ((dedupFirst_sublist t.rows).subset ((List.mem_filter.1 hr).1)))
  simp only [clean_data]
  rw [if_pos hm, hcols, hrows]

/-- C1 counterexample: a row whose First Name is the empty string (a
present, non-NaN value) survives `clean_data` untouched, so the output can
contain a row with an empty First Name, contradicting the claim that such
rows are removed. -/
theorem clean_keeps_empty_string_field :
    clean_data ⟨["First Name", "Email"], [[some "", some "x@y"]]⟩
      = Except.ok ⟨["First Name", "Email"], [[some "", some "x@y"]]⟩ ∧
    lookupVal ["First Name", "Email"] [some "", some "x@y"] "First Name"
      = some (some "") :=
  ⟨rfl, rfl⟩

/-- C1 (amended): every row of a table returned by `clean_data` has a
present (non-missing / non-NaN) First Name cell and a present Email cell;
rows with a missing value in either are removed, but a present empty
string is kept. -/
theorem clean_required_present (t t₂ : Table) (h : clean_data t = Except.ok t₂)
    (r : List (Option String)) (hr : r ∈ t₂.rows) :
    (∃ s, lookupVal t₂.cols r "First Name" = some (some s)) ∧
    (∃ s, lookupVal t₂.cols r "Email" = some (some s)) := by
  simp only [clean_data] at h
  by_cases hm : requiredCols.filter (fun c => c ∉ t.cols) = []
  · rw [if_pos hm] at h
    injection h with h
    subst h
    obtain ⟨r₀, hr₀, hmap⟩ := List.mem_map.1 hr
    obtain ⟨hr₀d, hok⟩ := List.mem_filter.1 hr₀
    rw [rowOk, Bool.and_eq_true] at hok
    constructor
    · obtain ⟨s, hs⟩ := (isPresent_iff _).1 hok.1
      refine ⟨s, ?_⟩
      rw [← hmap, lookupVal_removeCols t.cols r₀ "First Name" (by decide)]
      exact hs
    · obtain ⟨s, hs⟩ := (isPresent_iff _).1 hok.2
      refine ⟨s, ?_⟩
      rw [← hmap, lookupVal_removeCols t.cols r₀ "Email" (by decide)]
      exact hs
  · rw [if_neg hm] at h
    exact absurd h (by simp)

/-- C1 witness: a concrete one-row table passes `clean_data` and by
`clean_required_present` its surviving row has present First Name and
Email cells. -/
theorem clean_required_present_witness :
    (∃ s, lookupVal ["First Name", "Email"] [some "a", some "a@b.c"] "First Name"
      = some (some s)) ∧
    (∃ s, lookupVal ["First Name", "Email"] [some "a", some "a@b.c"] "Email"
      = some (some s)) :=
  clean_required_present ⟨["First Name", "Email"], [[some "a", some "a@b.c"]]⟩
    ⟨["First Name", "Email"], [[some "a", some "a@b.c"]]⟩ rfl
    [some "a", some "a@b.c"] (by simp)

/-- C3 counterexample: two rows that differ only in their Index column are
kept by deduplication, then become identical when the Index column is
pruned, so a second `clean_data` removes one of them: `clean` is not
idempotent on this table. -/
theorem clean_not_idempotent :
    (clean_data ⟨["First Name", "Email", "Index"],
        [[some "a", some "a@b", some "1"], [some "a", some "a@b", some "2"]]⟩).bind
      clean_data
    ≠ clean_data ⟨["First Name", "Email", "Index"],
        [[some "a", some "a@b", some "1"], [some "a", some "a@b", some "2"]]⟩ := by
  intro h
  have h1 : clean_data ⟨["First Name", "Email", "Index"],
      [[some "a", some "a@b", some "1"], [some "a", some "a@b", some "2"]]⟩
      = Except.ok ⟨["First Name", "Email"],
        [[some "a", some "a@b"], [some "a", some "a@b"]]⟩ := rfl
  have h2 : (clean_data ⟨["First Name", "Email", "Index"],
      [[some "a", some "a@b", some "1"], [some "a", some "a@b", some "2"]]⟩).bind
      clean_data
      = Except.ok ⟨["First Name", "Email"], [[some "a", some "a@b"]]⟩ := rfl
  rw [h2, h1] at h
  simp at h

/-- C3 (amended): `clean_data` is idempotent on every rectangular table
whose schema does not contain the pruned columns (Index, Subscription
Date); in general a second application can remove further rows, because
pruning those columns can make two previously distinct rows identical. -/
theorem clean_idempotent (t : Table) (hwf : t.WF)
    (hdisj : ∀ c ∈ t.cols, c ∉ droppedCols) :
    (clean_data t).bind clean_data = clean_data t := by
  by_cases hm : requiredCols.filter (fun c => c ∉ t.cols) = []
  · rw [clean_data_eq t hwf hdisj hm]
    have hb : (Except.ok (⟨t.cols, (dedupFirst t.rows).filter (rowOk t.cols)⟩ :
        Table)).bind clean_data
        = clean_data ⟨t.cols, (dedupFirst t.rows).filter (rowOk t.cols)⟩ := rfl
    rw [hb]
    have hwf₂ : Table.WF ⟨t.cols, (dedupFirst t.rows).filter (rowOk t.cols)⟩ := by
      intro r hr
      exact hwf r ((dedupFirst_sublist t.rows).subset ((List.mem_filter.1 hr).1))
    rw [clean_data_eq _ hwf₂ hdisj hm]
    have hnd : ((dedupFirst t.rows).filter (rowOk t.cols)).Nodup :=
      (nodup_dedupFirst t.rows).filter _
    rw [dedupFirst_eq_self _ hnd]
    have hff : ((dedupFirst t.rows).filter (rowOk t.cols)).filter (rowOk t.cols)
        = (dedupFirst t.rows).filter (rowOk t.cols) :=
      List.filter_eq_self.mpr (fun a ha => List.of_mem_filter ha)
    rw [hff]
  · simp only [clean_data]
    rw [if_neg hm]
    rfl

/-- C3 witness: idempotence at a concrete one-row table without the
pruned columns, via `clean_idempotent`. -/
theorem clean_idempotent_witness :
    (clean_data ⟨["First Name", "Email"], [[some "n", some "n@d"]]⟩).bind clean_data
      = clean_data ⟨["First Name", "Email"], [[some "n", some "n@d"]]⟩ :=
  clean_idempotent ⟨["First Name", "Email"], [[some "n", some "n@d"]]⟩
    (by decide) (by decide)

/-- C4 counterexample: a table consisting of one row duplicated twice
whose Email cell is missing: `clean_data` retains zero copies of it, not
exactly one, so the claim fails without a condition on the required
fields. The second conjunct shows the row is duplicated (k = 2) in the
input. -/
theorem clean_dedup_counterexample :
    clean_data ⟨["First Name", "Email"], [[some "a", none], [some "a", none]]⟩
      = Except.ok ⟨["First Name", "Email"], []⟩ ∧
    ([[some "a", none], [some "a", none]] :
      List (List (Option String))).count [some "a", none] = 2 :=
  ⟨rfl, rfl⟩

/-- C4 (amended): in a rectangular table without the pruned columns,
containing a duplicated row whose First Name and Email cells are present,
`clean_data` retains exactly one copy of that row, at the position of its
first occurrence (every surviving row to its left comes from before the
first occurrence), and the surviving rows are a sublist of the input
rows, in their original relative order. -/
theorem clean_dedup_first (t : Table) (r : List (Option String))
    (t₁ t₂ : List (List (Option String))) (hwf : t.WF)
    (hdisj : ∀ c ∈ t.cols, c ∉ droppedCols)
    (hFN : isPresent (lookupVal t.cols r "First Name") = true)
    (hEM : isPresent (lookupVal t.cols r "Email") = true)
    (hsplit : t.rows = t₁ ++ r :: t₂) (hfirst : r ∉ t₁) :
    ∃ u v, clean_data t = Except.ok ⟨t.cols, u ++ r :: v⟩ ∧
      (u ++ r :: v).count r = 1 ∧ u <+ t₁ ∧ (u ++ r :: v) <+ t.rows := by
  have hFNcol : "First Name" ∈ t.cols := by
    obtain ⟨s, hs⟩ := (isPresent_iff _).1 hFN
    exact mem_of_lookupVal _ _ _ _ hs
  have hEMcol : "Email" ∈ t.cols := by
    obtain ⟨s, hs⟩ := (isPresent_iff _).1 hEM
    exact mem_of_lookupVal _ _ _ _ hs
  have hm : requiredCols.filter (fun c => c ∉ t.cols) = [] := by
    simp [requiredCols, hFNcol, hEMcol]
  have hok : rowOk t.cols r = true := by
    rw [rowOk, Bool.and_eq_true]
    exact ⟨hFN, hEM⟩
  have hd1 : dedupFirst t.rows = dedupFirst t₁ ++ r :: dedupAux (r :: t₁) t₂ := by
    rw [hsplit]
    simp only [dedupFirst]
    rw [dedupAux_append, List.append_nil]
    congr 1
    simp only [dedupAux, if_neg hfirst]
  have hd2 : (dedupFirst t.rows).filter (rowOk t.cols)
      = (dedupFirst t₁).filter (rowOk t.cols)
        ++ r :: (dedupAux (r :: t₁) t₂).filter (rowOk t.cols) := by
    rw [hd1, List.filter_append, List.filter_cons, if_pos hok]
  refine ⟨(dedupFirst t₁).filter (rowOk t.cols),
    (dedupAux (r :: t₁) t₂).filter (rowOk t.cols), ?_, ?_, ?_, ?_⟩
  · rw [clean_data_eq t hwf hdisj hm, hd2]
  · have hru : r ∉ (dedupFirst t₁).filter (rowOk t.cols) := by
      intro hmem
      exact hfirst ((mem_dedupFirst r t₁).1 (List.mem_filter.1 hmem).1)
    have hrv : r ∉ (dedupAux (r :: t₁) t₂).filter (rowOk t.cols) := by
      intro hmem
      exact ((mem_dedupAux r (r :: t₁) t₂).1 (List.mem_filter.1 hmem).1).2
        (List.mem_cons_self r t₁)
    simp [List.count_append, List.count_cons_self,
      List.count_eq_zero_of_not_mem hru, List.count_eq_zero_of_not_mem hrv]
  · exact (List.filter_sublist _).trans (dedupFirst_sublist t₁)
  · rw [hsplit]
    refine List.Sublist.append ((List.filter_sublist _).trans (dedupFirst_sublist t₁)) ?_
    exact (((List.filter_sublist _).trans (dedupAux_sublist _ t₂)).cons₂ r)

/-- C4 witness: a concrete table with one row duplicated twice, via
`clean_dedup_first`: exactly one copy survives, first-occurrence position,
order preserved. -/
theorem clean_dedup_first_witness :
    ∃ u v, clean_data ⟨["First Name", "Email"],
        [[some "a", some "e@f"], [some "a", some "e@f"]]⟩
      = Except.ok ⟨["First Name", "Email"], u ++ [some "a", some "e@f"] :: v⟩ ∧
      (u ++ [some "a", some "e@f"] :: v).count [some "a", some "e@f"] = 1 ∧
      u <+ ([] : List (List (Option String))) ∧
      (u ++ [some "a", some "e@f"] :: v)
        <+ [[some "a", some "e@f"], [some "a", some "e@f"]] :=
  clean_dedup_first ⟨["First Name", "Email"],
      [[some "a", some "e@f"], [some "a", some "e@f"]]⟩
    [some "a", some "e@f"] [] [[some "a", some "e@f"]]
    (by decide) (by decide) rfl rfl rfl (by simp)

/-- C5: on a table whose schema lacks both required columns entirely,
`clean_data` fails with the `KeyError` naming the missing required
columns, rather than returning a table. -/
theorem clean_schema_error (t : Table) (h1 : "First Name" ∉ t.cols)
    (h2 : "Email" ∉ t.cols) :
    clean_data t = Except.error "KeyError: First Name, Email" := by
  have hm : requiredCols.filter (fun c => c ∉ t.cols) = requiredCols := by
    simp [requiredCols, h1, h2]
  simp only [clean_data]
  rw [hm]
  rw [if_neg (by decide : ¬ (requiredCols = []))]
  rfl

/-- C5 witness: a concrete table with only a Company column makes
`clean_data` fail with the schema `KeyError`, via `clean_schema_error`. -/
theorem clean_schema_error_witness :
    clean_data ⟨["Company"], [[some "x"]]⟩
      = Except.error "KeyError: First Name, Email" :=
  clean_schema_error ⟨["Company"], [[some "x"]]⟩ (by decide) (by decide)

end CustomerApp
